import Mathlib

/-!
Verification of the weekly schedule table core of `django-lass-schedule`
(`schedule/utils/week_table.py`), together with a spec-level model of the
gap filler exercised by `schedule/tests.py`.

Embedding conventions:
* Naive local datetimes are `Int` values measured in minutes; a
  `timezone.timedelta` is likewise an `Int` number of minutes, so
  `timedelta(days=1)` is the constant `DAY = 1440`.  Arithmetic on naive
  datetimes in the source is plain arithmetic, which this captures exactly.
* The tabulation code reads a timeslot only through `nld(slot.start_time)`
  and `nld(slot.end_time())`, so a timeslot is embedded by those two naive
  local values (`Slot.nlStart`, `Slot.nlEnd`).
* Python exceptions become an `Except Err` result; `Err.scheduleConsistency`
  is `ScheduleInconsistencyError` and `Err.indexError` is a list-index
  failure (`IndexError`).
-/

/-- A timeslot, seen through `nld`: its naive-local start and end. -/
structure Slot where
  nlStart : Int
  nlEnd : Int
deriving DecidableEq

/-- The exceptions the embedded code can raise. -/
inductive Err where
  | scheduleConsistency
  | indexError
  | invalidRange
deriving DecidableEq

/-- `DAY = timezone.timedelta(days=1)`, in minutes. -/
def DAY : Int := 1440

/-- The amount to add to the day number to get the schedule table column
representing that day. -/
def SCHEDULE_DAY_OFFSET : Nat := 1

/-- The column of the schedule table holding the time. -/
def SCHEDULE_TIME_COL : Nat := 0

/-- `rotate_day(day_end, day_list, done_day_lists)`: ends the current day.
Raises `ScheduleInconsistencyError` on an empty `day_list`; otherwise pushes
`day_list` onto `done_day_lists` and returns the initial list for the new
day, which holds the last show again exactly when that show's naive local
end time is after `day_end`. -/
def rotate_day (day_end : Int) (day_list : List Slot)
    (done_day_lists : List (List Slot)) :
    Except Err (List (List Slot) × List Slot) :=
  match day_list.getLast? with
  | none => .error .scheduleConsistency
  | some last_show =>
      .ok (done_day_lists ++ [day_list],
           if last_show.nlEnd > day_end then [last_show] else [])

/-- The `while day_end <= nlslot` rotation loop inside `split_days`,
returning the updated `(day_start, day_end, day_list, done_day_lists)`. -/
def rotate_loop (nlslot day_start day_end : Int) (day_list : List Slot)
    (done_day_lists : List (List Slot)) :
    Except Err (Int × Int × List Slot × List (List Slot)) :=
  if day_end ≤ nlslot then
    match rotate_day day_end day_list done_day_lists with
    | .error e => .error e
    | .ok (done2, new_list) =>
        rotate_loop nlslot day_end (day_end + DAY) new_list done2
  else
    .ok (day_start, day_end, day_list, done_day_lists)
termination_by (nlslot + DAY - day_end).toNat
decreasing_by
  simp only [DAY] at *
  omega

/-- The `for slot in data` loop of `split_days`, carrying the loop state. -/
def split_days_go (day_start day_end : Int) (day_list : List Slot)
    (done_day_lists : List (List Slot)) (partitions : Finset Int) :
    List Slot → Except Err (List (List Slot) × Finset Int)
  | [] => .ok (done_day_lists ++ [day_list], partitions)
  | slot :: rest =>
    match rotate_loop slot.nlStart day_start day_end day_list done_day_lists with
    | .error e => .error e
    | .ok (ds, de, dl, done2) =>
        split_days_go ds de (dl ++ [slot]) done2
          (if slot.nlStart > ds then insert (slot.nlStart - ds) partitions
           else partitions)
          rest

/-- `split_days(nlstart, data)`: splits a slot list into day lists and
collects the set of observed local start offsets. -/
def split_days (nlstart : Int) (data : List Slot) :
    Except Err (List (List Slot) × Finset Int) :=
  split_days_go nlstart (nlstart + DAY) [] [] {0} data

/-! ### Unchecked trace of `split_days`

`split_days_all` runs the same recursion as `split_days` but with the
empty-day check of `rotate_day` removed, so it never fails.  It is used to
express, independently of the check itself, which closed day lists a run
of `split_days` would produce. -/

/-- `rotate_day` without the empty-day check. -/
def rotate_day_all (day_end : Int) (day_list : List Slot)
    (done_day_lists : List (List Slot)) :
    List (List Slot) × List Slot :=
  (done_day_lists ++ [day_list],
   match day_list.getLast? with
   | none => []
   | some last_show => if last_show.nlEnd > day_end then [last_show] else [])

/-- The rotation loop of `split_days_all`. -/
def rotate_loop_all (nlslot day_start day_end : Int) (day_list : List Slot)
    (done_day_lists : List (List Slot)) :
    Int × Int × List Slot × List (List Slot) :=
  if day_end ≤ nlslot then
    match rotate_day_all day_end day_list done_day_lists with
    | (done2, new_list) =>
        rotate_loop_all nlslot day_end (day_end + DAY) new_list done2
  else
    (day_start, day_end, day_list, done_day_lists)
termination_by (nlslot + DAY - day_end).toNat
decreasing_by
  simp only [DAY] at *
  omega

/-- The slot loop of `split_days_all`. -/
def split_days_all_go (day_start day_end : Int) (day_list : List Slot)
    (done_day_lists : List (List Slot)) (partitions : Finset Int) :
    List Slot → List (List Slot) × Finset Int
  | [] => (done_day_lists ++ [day_list], partitions)
  | slot :: rest =>
    match rotate_loop_all slot.nlStart day_start day_end day_list done_day_lists with
    | (ds, de, dl, done2) =>
        split_days_all_go ds de (dl ++ [slot]) done2
          (if slot.nlStart > ds then insert (slot.nlStart - ds) partitions
           else partitions)
          rest

/-- `split_days` with the empty-day check removed. -/
def split_days_all (nlstart : Int) (data : List Slot) :
    List (List Slot) × Finset Int :=
  split_days_all_go nlstart (nlstart + DAY) [] [] {0} data

/-! ### Day assignment trace of `split_days`

`assign_days` pairs each slot with the `day_start` value current when
`split_days` appends it, mirroring the rotation loop's advance of
`day_start`. -/

/-- The `day_start` value after the rotation loop runs for a slot whose
naive local start is `nlslot`: advance by whole days while
`day_start + DAY ≤ nlslot`. -/
def skip_days (nlslot day_start : Int) : Int :=
  if day_start + DAY ≤ nlslot then skip_days nlslot (day_start + DAY)
  else day_start
termination_by (nlslot - day_start).toNat
decreasing_by
  simp only [DAY] at *
  omega

/-- Pairs each slot with the `day_start` of the day `split_days` assigns
it to. -/
def assign_days (day_start : Int) : List Slot → List (Slot × Int)
  | [] => []
  | slot :: rest =>
      (slot, skip_days slot.nlStart day_start) ::
        assign_days (skip_days slot.nlStart day_start) rest

/-- The row offsets contributed by the slots: one offset per slot whose
naive local start is strictly after its assigned day's start. -/
def slot_offsets (nlstart : Int) (data : List Slot) : List Int :=
  (assign_days nlstart data).filterMap fun p =>
    if p.1.nlStart > p.2 then some (p.1.nlStart - p.2) else none

/-! ### The schedule table -/

/-- One row of the schedule table: the Python row list
`[time] + data`, with the naive local row time at index
`SCHEDULE_TIME_COL` followed by one cell per day column. -/
structure Row where
  time : Int
  data : List (Option (Slot × Nat))
deriving DecidableEq

/-- A schedule table is a list of rows. -/
abbrev Table := List Row

/-- `empty_table(nlstart, partitions, n_cols)`: one row per sorted
partition offset, each holding its naive time and `n_cols` empty cells. -/
def empty_table (nlstart : Int) (partitions : Finset Int) (n_cols : Nat) :
    Table :=
  (partitions.sort (· ≤ ·)).map fun i =>
    { time := nlstart + i, data := List.replicate n_cols none }

/-- The cell of `table` at row `r`, data column `d` (the Python column
`SCHEDULE_DAY_OFFSET + d`): `none` when the indices are out of range,
otherwise `some` of the stored cell. -/
def cell (table : Table) (r d : Nat) : Option (Option (Slot × Nat)) :=
  table[r]?.bind fun row => row.data[d]?

/-- The cell of `table` at row `r` and Python column `c` (with the time
column at `SCHEDULE_TIME_COL = 0` and day columns from
`SCHEDULE_DAY_OFFSET` upward). -/
def table_cell (table : Table) (r c : Nat) : Option (Option (Slot × Nat)) :=
  cell table r (c - SCHEDULE_DAY_OFFSET)

/-- The function made by `make_add_to_table(table, days)`, applied to
`(row, slot, rows)`: executes `table[row][SCHEDULE_DAY_OFFSET + days] =
slot, rows`, raising `IndexError` when either index is out of range.
The data column index is `days` because `Row.data` excludes the time
column at index `SCHEDULE_TIME_COL`. -/
def add_to_table (table : Table) (days row : Nat) (slot : Slot)
    (rows : Nat) : Except Err Table :=
  match table[row]? with
  | none => .error .indexError
  | some r =>
      if days < r.data.length then
        .ok (table.set row { r with data := r.data.set days (some (slot, rows)) })
      else .error .indexError

/-- The `while row_date(current_row) < nlend: current_row += 1` loop of
`populate_table_day`, where `row_date(row) = table[row][SCHEDULE_TIME_COL]
+ offset`.  Returns the stopping cursor and, when the loop stopped inside
the table, the stopping row; `none` means the lookup raised `IndexError`
(the cursor ran off the table). -/
def advance_cursor (table : Table) (offset nlend : Int) (cur : Nat) :
    Nat × Option Row :=
  if hlt : cur < table.length then
    if (table[cur]).time + offset < nlend then
      advance_cursor table offset nlend (cur + 1)
    else
      (cur, some (table[cur]))
  else (cur, none)
termination_by table.length - cur

/-- The `for slot in day` loop of `populate_table_day`, carrying the
table (mutated by `add_to_table`) and the cursor.  A stop row strictly
beyond the slot's naive local end raises `ScheduleInconsistencyError`;
running off the table (`hit_bottom`) is not an error. -/
def populate_table_day_go (offset : Int) (days : Nat) (table : Table)
    (cur : Nat) : List Slot → Except Err Table
  | [] => .ok table
  | slot :: rest =>
      match advance_cursor table offset slot.nlEnd cur with
      | (cur2, some row) =>
          if row.time + offset > slot.nlEnd then
            .error .scheduleConsistency
          else
            match add_to_table table days cur slot (cur2 - cur) with
            | .error e => .error e
            | .ok table2 => populate_table_day_go offset days table2 cur2 rest
      | (cur2, none) =>
          match add_to_table table days cur slot (cur2 - cur) with
          | .error e => .error e
          | .ok table2 => populate_table_day_go offset days table2 cur2 rest

/-- `populate_table_day`, for day number `days`: the row-date offset is
`timezone.timedelta(days=days)` and the cursor starts at row 0. -/
def populate_table_day (table : Table) (days : Nat) (day : List Slot) :
    Except Err Table :=
  populate_table_day_go (DAY * days) days table 0 day

/-- The `for i, day in enumerate(data_lists)` loop of `populate_table`,
starting at day index `i`. -/
def populate_table_days (table : Table) : Nat → List (List Slot) →
    Except Err Table
  | _, [] => .ok table
  | i, day :: rest =>
      match populate_table_day table i day with
      | .error e => .error e
      | .ok t2 => populate_table_days t2 (i + 1) rest

/-- `populate_table(table, data_lists)`. -/
def populate_table (table : Table) (data_lists : List (List Slot)) :
    Except Err Table :=
  populate_table_days table 0 data_lists

/-- `tabulate(schedule)`.  The schedule object is embedded by
`nld(schedule.start)` (its naive local start) and `schedule.data`, which
is either an error-signifier string (`Sum.inl`) or the gap-filled slot
list (`Sum.inr`). -/
def tabulate (nlstart : Int) (data : String ⊕ List Slot) :
    Except Err (String ⊕ Table) :=
  match data with
  | .inl s => .ok (.inl s)
  | .inr slots =>
      match split_days nlstart slots with
      | .error e => .error e
      | .ok (data_lists, partitions) =>
          match populate_table (empty_table nlstart partitions data_lists.length)
              data_lists with
          | .error e => .error e
          | .ok t => .ok (.inr t)

/-! ### The gap filler (spec model)

`schedule.utils.filler.fill` is not part of the sources here; only its
tests are.  It is modelled from the specification, with a timeslot seen
through its canonical range boundaries `range_start()` / `range_end()`
and its filler flag. -/

/-- A timeslot as the gap filler sees it: its canonical range boundaries
and whether its show type is the filler show. -/
structure FillSlot where
  rstart : Int
  rend : Int
  filler : Bool
deriving DecidableEq

/-- Modelled from the spec: the walk of `fill` over a nonempty slot list.
Between each consecutive pair with `slot[i].end < slot[i+1].start` a
filler slot for that gap is inserted, and after the last slot a filler up
to `e` is appended when `last.end < e`; original slots are preserved in
order. -/
def fill_between : List FillSlot → Int → List FillSlot
  | [], _ => []
  | [a], e => if a.rend < e then [a, ⟨a.rend, e, true⟩] else [a]
  | a :: b :: rest, e =>
      if a.rend < b.rstart then
        a :: ⟨a.rend, b.rstart, true⟩ :: fill_between (b :: rest) e
      else
        a :: fill_between (b :: rest) e

/-- Modelled from the spec: `fill(timeslots, start, end)`
(`schedule.utils.filler.fill`, absent from the sources).  Fails with
`InvalidRangeError` when `start > end`; fills an empty list with a single
filler spanning the range; otherwise pre-fills before the first slot when
`start` is strictly before it, fills interior gaps, and post-fills after
the last slot. -/
def fill (timeslots : List FillSlot) (s e : Int) :
    Except Err (List FillSlot) :=
  if e < s then .error .invalidRange
  else
    match timeslots with
    | [] => .ok [⟨s, e, true⟩]
    | first :: rest =>
        let pre : List FillSlot :=
          if s < first.rstart then [⟨s, first.rstart, true⟩] else []
        .ok (pre ++ fill_between (first :: rest) e)

/-! ## Lemmas about the rotation loop -/

theorem rotate_loop_exit (nlslot day_start day_end : Int) (dl : List Slot)
    (done : List (List Slot)) (h : ¬ day_end ≤ nlslot) :
    rotate_loop nlslot day_start day_end dl done =
      .ok (day_start, day_end, dl, done) := by
  rw [rotate_loop, if_neg h]

theorem rotate_loop_step (nlslot day_start day_end : Int) (dl nl : List Slot)
    (done done2 : List (List Slot)) (h : day_end ≤ nlslot)
    (hrot : rotate_day day_end dl done = .ok (done2, nl)) :
    rotate_loop nlslot day_start day_end dl done =
      rotate_loop nlslot day_end (day_end + DAY) nl done2 := by
  rw [rotate_loop, if_pos h, hrot]

theorem split_days_go_cons_eq (day_start day_end : Int) (day_list : List Slot)
    (done_day_lists : List (List Slot)) (partitions : Finset Int) (slot : Slot)
    (rest : List Slot) :
    split_days_go day_start day_end day_list done_day_lists partitions
        (slot :: rest) =
      match rotate_loop slot.nlStart day_start day_end day_list
          done_day_lists with
      | .error e => .error e
      | .ok (ds, de, dl, done2) =>
          split_days_go ds de (dl ++ [slot]) done2
            (if slot.nlStart > ds then insert (slot.nlStart - ds) partitions
             else partitions)
            rest := rfl

theorem rotate_day_error_empty (day_end : Int) (day_list : List Slot)
    (done_day_lists : List (List Slot)) (e : Err)
    (h : rotate_day day_end day_list done_day_lists = .error e) :
    day_list = [] ∧ e = .scheduleConsistency := by
  cases hl : day_list.getLast? with
  | none =>
      refine ⟨List.getLast?_eq_none_iff.mp hl, ?_⟩
      simp [rotate_day, hl] at h
      exact h.symm
  | some last_show => simp [rotate_day, hl] at h

theorem rotate_day_ok_all (day_end : Int) (day_list : List Slot)
    (done_day_lists : List (List Slot)) (p : List (List Slot) × List Slot)
    (h : rotate_day day_end day_list done_day_lists = .ok p) :
    rotate_day_all day_end day_list done_day_lists = p ∧
    day_list ≠ [] ∧ p.1 = done_day_lists ++ [day_list] := by
  cases hl : day_list.getLast? with
  | none => simp [rotate_day, hl] at h
  | some last_show =>
      simp [rotate_day, hl] at h
      refine ⟨?_, ?_, ?_⟩
      · simp [rotate_day_all, hl, ← h]
      · intro hnil; rw [hnil] at hl; simp at hl
      · simp [← h]

theorem rotate_loop_all_done_mono (nlslot : Int) :
    ∀ (day_start day_end : Int) (day_list : List Slot)
      (done_day_lists : List (List Slot)),
      ∃ closed,
        (rotate_loop_all nlslot day_start day_end day_list done_day_lists).2.2.2 =
          done_day_lists ++ closed := by
  intro day_start day_end day_list done_day_lists
  induction day_start, day_end, day_list, done_day_lists
      using rotate_loop_all.induct nlslot with
  | case1 ds de dl done hle done2 new_list hrot ih =>
      rw [rotate_loop_all, if_pos hle, hrot]
      obtain ⟨closed, hc⟩ := ih
      rw [hc]
      cases hrot2 : dl.getLast? <;> simp [rotate_day_all, hrot2] at hrot <;>
        exact ⟨dl :: closed, by rw [← hrot.1]; simp⟩
  | case2 ds de dl done hle =>
      rw [rotate_loop_all, if_neg hle]
      exact ⟨[], by simp⟩

theorem rotate_loop_ok_post (nlslot : Int) :
    ∀ (day_start day_end : Int) (day_list : List Slot)
      (done_day_lists : List (List Slot))
      (r : Int × Int × List Slot × List (List Slot)),
      rotate_loop nlslot day_start day_end day_list done_day_lists = .ok r →
      rotate_loop_all nlslot day_start day_end day_list done_day_lists = r ∧
      ¬ r.2.1 ≤ nlslot ∧
      (∃ closed, r.2.2.2 = done_day_lists ++ closed ∧ ∀ l ∈ closed, l ≠ []) ∧
      (day_end = day_start + DAY →
        r.2.1 = r.1 + DAY ∧ r.1 = skip_days nlslot day_start) := by
  intro day_start day_end day_list done_day_lists r
  induction day_start, day_end, day_list, done_day_lists
      using rotate_loop.induct nlslot with
  | case1 ds de dl done hle e herr =>
      rw [rotate_loop, if_pos hle, herr]
      intro h; exact absurd h (by simp)
  | case2 ds de dl done hle done2 new_list hrot ih =>
      rw [rotate_loop, if_pos hle, hrot]
      intro h
      obtain ⟨hall, hexit, ⟨closed, hcl, hne⟩, hskip⟩ := ih h
      obtain ⟨hall2, hdl, hdone2⟩ := rotate_day_ok_all de dl done (done2, new_list) hrot
      refine ⟨?_, hexit, ⟨dl :: closed, ?_, ?_⟩, ?_⟩
      · rw [rotate_loop_all, if_pos hle, hall2]
        exact hall
      · rw [hcl]
        simp at hdone2
        rw [hdone2]
        simp
      · intro l hl
        rcases List.mem_cons.mp hl with h1 | h1
        · rw [h1]; exact hdl
        · exact hne l h1
      · intro hde
        have h1 := hskip rfl
        refine ⟨h1.1, ?_⟩
        rw [h1.2]
        conv_rhs => rw [skip_days]
        rw [if_pos (show ds + DAY ≤ nlslot by omega), hde]
  | case3 ds de dl done hle =>
      rw [rotate_loop, if_neg hle]
      intro h
      have hr : r = (ds, de, dl, done) := by
        cases h; rfl
      subst hr
      refine ⟨by rw [rotate_loop_all, if_neg hle], hle, ⟨[], by simp, by simp⟩, ?_⟩
      intro hde
      exact ⟨hde, by rw [skip_days, if_neg (by omega)]⟩

theorem rotate_loop_error_case (nlslot : Int) :
    ∀ (day_start day_end : Int) (day_list : List Slot)
      (done_day_lists : List (List Slot)) (e : Err),
      rotate_loop nlslot day_start day_end day_list done_day_lists = .error e →
      e = .scheduleConsistency ∧
      [] ∈ (rotate_loop_all nlslot day_start day_end day_list done_day_lists).2.2.2 := by
  intro day_start day_end day_list done_day_lists e
  induction day_start, day_end, day_list, done_day_lists
      using rotate_loop.induct nlslot with
  | case1 ds de dl done hle e2 herr =>
      rw [rotate_loop, if_pos hle, herr]
      intro h
      obtain ⟨hnil, he⟩ := rotate_day_error_empty de dl done e2 herr
      have he2 : e = e2 := by cases h; rfl
      subst hnil
      refine ⟨he2 ▸ he, ?_⟩
      rw [rotate_loop_all, if_pos hle]
      have hra : rotate_day_all de [] done = (done ++ [[]], []) := by
        simp [rotate_day_all]
      rw [hra]
      obtain ⟨closed, hc⟩ :=
        rotate_loop_all_done_mono nlslot de (de + DAY) [] (done ++ [[]])
      rw [hc]
      simp
  | case2 ds de dl done hle done2 new_list hrot ih =>
      rw [rotate_loop, if_pos hle, hrot]
      intro h
      obtain ⟨he, hmem⟩ := ih h
      refine ⟨he, ?_⟩
      rw [rotate_loop_all, if_pos hle,
        (rotate_day_ok_all de dl done (done2, new_list) hrot).1]
      exact hmem
  | case3 ds de dl done hle =>
      rw [rotate_loop, if_neg hle]
      intro h; exact absurd h (by simp)

/-! ## Lemmas about `split_days` -/

theorem split_days_all_go_shape :
    ∀ (data : List Slot) (day_start day_end : Int) (day_list : List Slot)
      (done_day_lists : List (List Slot)) (partitions : Finset Int),
      ∃ closed final_day,
        (split_days_all_go day_start day_end day_list done_day_lists partitions
            data).1 =
          done_day_lists ++ closed ++ [final_day] := by
  intro data
  induction data with
  | nil =>
      intro ds de dl done parts
      exact ⟨[], dl, by simp [split_days_all_go]⟩
  | cons slot rest ih =>
      intro ds de dl done parts
      rw [split_days_all_go]
      rcases hall : rotate_loop_all slot.nlStart ds de dl done with
        ⟨ds2, de2, dl2, done2⟩
      obtain ⟨closed1, hc1⟩ := rotate_loop_all_done_mono slot.nlStart ds de dl done
      rw [hall] at hc1
      simp only at hc1
      obtain ⟨closed2, fd, hc2⟩ := ih ds2 de2 (dl2 ++ [slot]) done2
        (if slot.nlStart > ds2 then insert (slot.nlStart - ds2) parts else parts)
      exact ⟨closed1 ++ closed2, fd, by rw [hc2, hc1]; simp⟩

theorem split_days_go_spec :
    ∀ (data : List Slot) (day_start day_end : Int) (day_list : List Slot)
      (done_day_lists : List (List Slot)) (partitions : Finset Int),
      (∀ l ∈ done_day_lists, l ≠ []) →
      ((∃ r, split_days_go day_start day_end day_list done_day_lists partitions
          data = .ok r) ↔
        ∀ l ∈ (split_days_all_go day_start day_end day_list done_day_lists
            partitions data).1.dropLast, l ≠ []) ∧
      (∀ r, split_days_go day_start day_end day_list done_day_lists partitions
          data = .ok r →
        r = split_days_all_go day_start day_end day_list done_day_lists
              partitions data) := by
  intro data
  induction data with
  | nil =>
      intro ds de dl done parts hdone
      rw [split_days_go, split_days_all_go]
      refine ⟨⟨fun _ => ?_, fun _ => ⟨_, rfl⟩⟩, fun r hr => ?_⟩
      · rw [List.dropLast_concat]
        exact hdone
      · injection hr with h
        exact h.symm
  | cons slot rest ih =>
      intro ds de dl done parts hdone
      rw [split_days_go, split_days_all_go]
      cases hrl : rotate_loop slot.nlStart ds de dl done with
      | error e =>
          obtain ⟨he, hmem⟩ :=
            rotate_loop_error_case slot.nlStart ds de dl done e hrl
          rcases hall : rotate_loop_all slot.nlStart ds de dl done with
            ⟨ds2, de2, dl2, done2⟩
          rw [hall] at hmem
          simp only at hmem
          obtain ⟨closed, fd, hshape⟩ := split_days_all_go_shape rest ds2 de2
            (dl2 ++ [slot]) done2
            (if slot.nlStart > ds2 then insert (slot.nlStart - ds2) parts
             else parts)
          refine ⟨⟨fun hex => ?_, fun hall2 => ?_⟩, fun r hr => ?_⟩
          · obtain ⟨r, hr⟩ := hex
            exact absurd hr (by simp)
          · exfalso
            have hnil := hall2 [] (by rw [hshape, List.dropLast_concat]; simp [hmem])
            exact hnil rfl
          · exact absurd hr (by simp)
      | ok q =>
          rcases q with ⟨ds2, de2, dl2, done2⟩
          obtain ⟨hall, hexit, ⟨closed, hcl, hne⟩, hskip⟩ :=
            rotate_loop_ok_post slot.nlStart ds de dl done _ hrl
          rw [hall]
          simp only at hcl
          have hdone2 : ∀ l ∈ done2, l ≠ [] := by
            rw [hcl]
            intro l hl
            rcases List.mem_append.mp hl with h1 | h1
            · exact hdone l h1
            · exact hne l h1
          exact ih ds2 de2 (dl2 ++ [slot]) done2
            (if slot.nlStart > ds2 then insert (slot.nlStart - ds2) parts
             else parts) hdone2

theorem assign_days_cons (day_start : Int) (slot : Slot) (rest : List Slot) :
    assign_days day_start (slot :: rest) =
      (slot, skip_days slot.nlStart day_start) ::
        assign_days (skip_days slot.nlStart day_start) rest := by
  rw [assign_days.eq_def]

theorem slot_offsets_cons (day_start : Int) (slot : Slot) (rest : List Slot) :
    slot_offsets day_start (slot :: rest) =
      (if slot.nlStart > skip_days slot.nlStart day_start then
         [slot.nlStart - skip_days slot.nlStart day_start]
       else []) ++ slot_offsets (skip_days slot.nlStart day_start) rest := by
  simp only [slot_offsets, assign_days_cons, List.filterMap_cons]
  by_cases hgt : slot.nlStart > skip_days slot.nlStart day_start
  · rw [if_pos hgt, if_pos hgt]
    rfl
  · rw [if_neg hgt, if_neg hgt]
    rfl

theorem split_days_go_partitions :
    ∀ (data : List Slot) (day_start day_end : Int) (day_list : List Slot)
      (done_day_lists : List (List Slot)) (partitions : Finset Int),
      day_end = day_start + DAY →
      ∀ r, split_days_go day_start day_end day_list done_day_lists partitions
          data = .ok r →
        r.2 = partitions ∪ (slot_offsets day_start data).toFinset := by
  intro data
  induction data with
  | nil =>
      intro ds de dl done parts hde r hr
      rw [split_days_go] at hr
      injection hr with h
      rw [← h]
      simp [slot_offsets, assign_days]
  | cons slot rest ih =>
      intro ds de dl done parts hde r hr
      rw [split_days_go] at hr
      cases hrl : rotate_loop slot.nlStart ds de dl done with
      | error e => rw [hrl] at hr; exact absurd hr (by simp)
      | ok q =>
          rcases q with ⟨ds2, de2, dl2, done2⟩
          rw [hrl] at hr
          obtain ⟨hall, hexit, hclosed, hskip⟩ :=
            rotate_loop_ok_post slot.nlStart ds de dl done _ hrl
          obtain ⟨hde2, hds2⟩ := hskip hde
          simp only at hde2 hds2 hexit
          have ihr := ih ds2 de2 (dl2 ++ [slot]) done2
            (if slot.nlStart > ds2 then insert (slot.nlStart - ds2) parts
             else parts) hde2 r hr
          rw [ihr, slot_offsets_cons, ← hds2]
          by_cases hgt : slot.nlStart > ds2
          · rw [if_pos hgt, if_pos hgt]
            simp only [List.cons_append, List.nil_append, List.toFinset_cons,
              Finset.insert_union, Finset.union_insert]
          · rw [if_neg hgt, if_neg hgt]
            simp only [List.nil_append]

theorem split_days_go_bounds :
    ∀ (data : List Slot) (day_start day_end : Int) (day_list : List Slot)
      (done_day_lists : List (List Slot)) (partitions : Finset Int),
      day_end = day_start + DAY →
      (∀ p ∈ partitions, 0 ≤ p ∧ p < DAY) →
      ∀ r, split_days_go day_start day_end day_list done_day_lists partitions
          data = .ok r →
        ∀ p ∈ r.2, 0 ≤ p ∧ p < DAY := by
  intro data
  induction data with
  | nil =>
      intro ds de dl done parts hde hparts r hr
      rw [split_days_go] at hr
      injection hr with h
      rw [← h]
      exact hparts
  | cons slot rest ih =>
      intro ds de dl done parts hde hparts r hr
      rw [split_days_go] at hr
      cases hrl : rotate_loop slot.nlStart ds de dl done with
      | error e => rw [hrl] at hr; exact absurd hr (by simp)
      | ok q =>
          rcases q with ⟨ds2, de2, dl2, done2⟩
          rw [hrl] at hr
          obtain ⟨hall, hexit, hclosed, hskip⟩ :=
            rotate_loop_ok_post slot.nlStart ds de dl done _ hrl
          obtain ⟨hde2, hds2⟩ := hskip hde
          simp only at hde2 hds2 hexit
          refine ih ds2 de2 (dl2 ++ [slot]) done2 _ hde2 ?_ r hr
          intro p hp
          by_cases hgt : slot.nlStart > ds2
          · rw [if_pos hgt] at hp
            rcases Finset.mem_insert.mp hp with h1 | h1
            · constructor <;> omega
            · exact hparts p h1
          · rw [if_neg hgt] at hp
            exact hparts p hp

/-! ## Lemmas about the population cursor -/

theorem advance_cursor_spec (table : Table) (offset nlend : Int) :
    ∀ cur : Nat,
      cur ≤ (advance_cursor table offset nlend cur).1 ∧
      (∀ j, cur ≤ j → j < (advance_cursor table offset nlend cur).1 →
        ∃ h : j < table.length, (table[j]).time + offset < nlend) ∧
      (∀ row, (advance_cursor table offset nlend cur).2 = some row →
        ∃ h : (advance_cursor table offset nlend cur).1 < table.length,
          table[(advance_cursor table offset nlend cur).1] = row ∧
          ¬ row.time + offset < nlend) ∧
      ((advance_cursor table offset nlend cur).2 = none →
        table.length ≤ (advance_cursor table offset nlend cur).1 ∧
        (cur ≤ table.length →
          (advance_cursor table offset nlend cur).1 = table.length)) := by
  intro cur
  induction cur using advance_cursor.induct table offset nlend with
  | case1 x hx hlt ih =>
      rw [advance_cursor, dif_pos hx, if_pos hlt]
      obtain ⟨ih1, ih2, ih3, ih4⟩ := ih
      refine ⟨by omega, ?_, ih3, ?_⟩
      · intro j hj1 hj2
        rcases Nat.eq_or_lt_of_le hj1 with h1 | h1
        · have hjx : j = x := h1.symm
          subst hjx
          exact ⟨by omega, hlt⟩
        · exact ih2 j (by omega) hj2
      · intro hnone
        obtain ⟨h1, h2⟩ := ih4 hnone
        exact ⟨h1, fun _ => h2 (by omega)⟩
  | case2 x hx hlt =>
      rw [advance_cursor, dif_pos hx, if_neg hlt]
      refine ⟨le_refl x, ?_, ?_, ?_⟩
      · intro j hj1 hj2
        omega
      · intro row hrow
        simp only at hrow
        injection hrow with h
        exact ⟨hx, h, by rw [← h]; exact hlt⟩
      · intro hnone
        simp at hnone
  | case3 x hx =>
      rw [advance_cursor, dif_neg hx]
      refine ⟨le_refl x, ?_, ?_, ?_⟩
      · intro j hj1 hj2
        omega
      · intro row hrow
        simp at hrow
      · intro _
        exact ⟨by omega, by omega⟩

/-! ## Lemmas about table population -/

/-- The in-column structure laid down by `populate_table_day` in data
column `d` (the Python column `SCHEDULE_DAY_OFFSET + d`) over the rows
`[r, e)`: each slot of the list occupies a span of `s ≥ 1` consecutive
rows, its `(slot, span)` pair stored at the first row of the span, the
remaining `s - 1` rows of the span left `None`, and the next slot's span
starting immediately after; the final span ends at row `e`. -/
def col_tiling (table : Table) (d : Nat) : Nat → List Slot → Nat → Prop
  | r, [], e => e = r
  | r, slot :: rest, e =>
      ∃ s, 1 ≤ s ∧ cell table r d = some (some (slot, s)) ∧
        (∀ k, 0 < k → k < s → cell table (r + k) d = some none) ∧
        col_tiling table d (r + s) rest e

theorem add_to_table_ok (table : Table) (d r0 : Nat) (slot : Slot)
    (rows : Nat) (t2 : Table)
    (h : add_to_table table d r0 slot rows = .ok t2) :
    ∃ hr : r0 < table.length,
      d < (table[r0]).data.length ∧
      t2.length = table.length ∧
      cell t2 r0 d = some (some (slot, rows)) ∧
      (∀ r c, r ≠ r0 ∨ c ≠ d → cell t2 r c = cell table r c) ∧
      (∀ r : Nat, (t2[r]?).map Row.time = (table[r]?).map Row.time) ∧
      (∀ w, (∀ row ∈ table, row.data.length = w) →
        ∀ row ∈ t2, row.data.length = w) := by
  cases hg : table[r0]? with
  | none =>
      rw [add_to_table, hg] at h
      exact absurd h (by simp)
  | some r =>
      rw [add_to_table, hg] at h
      obtain ⟨hr, hre⟩ := List.getElem?_eq_some.mp hg
      replace h : (if d < r.data.length then
          Except.ok (table.set r0 { r with data := r.data.set d (some (slot, rows)) })
        else (Except.error Err.indexError : Except Err Table)) = .ok t2 := h
      by_cases hd : d < r.data.length
      · rw [if_pos hd] at h
        injection h with h
        have t2eq : t2 =
            table.set r0 { r with data := r.data.set d (some (slot, rows)) } :=
          h.symm
        refine ⟨hr, by rw [hre]; exact hd, by rw [t2eq]; simp, ?_, ?_, ?_, ?_⟩
        · rw [t2eq, cell, List.getElem?_set_self hr]
          show (r.data.set d (some (slot, rows)))[d]? = some (some (slot, rows))
          exact List.getElem?_set_self hd
        · intro r1 c hrc
          by_cases hr2 : r1 = r0
          · subst hr2
            have hc : c ≠ d := by tauto
            rw [t2eq, cell, cell, List.getElem?_set_self hr, hg]
            show (r.data.set d (some (slot, rows)))[c]? = r.data[c]?
            exact List.getElem?_set_ne (by omega)
          · rw [t2eq, cell, cell, List.getElem?_set_ne (by omega)]
        · intro r1
          by_cases hr2 : r1 = r0
          · subst hr2
            rw [t2eq, List.getElem?_set_self hr, hg]
            rfl
          · rw [t2eq, List.getElem?_set_ne (by omega)]
        · intro w hw row hrow
          rw [t2eq] at hrow
          rcases List.mem_or_eq_of_mem_set hrow with h1 | h1
          · exact hw row h1
          · subst h1
            simp only [List.length_set]
            exact hw r (hre ▸ List.getElem_mem hr)
      · rw [if_neg hd] at h
        exact absurd h (by simp)

theorem populate_table_day_go_cons (offset : Int) (d : Nat) (table : Table)
    (cur : Nat) (slot : Slot) (rest : List Slot) :
    populate_table_day_go offset d table cur (slot :: rest) =
      match advance_cursor table offset slot.nlEnd cur with
      | (cur2, some row) =>
          if row.time + offset > slot.nlEnd then .error .scheduleConsistency
          else match add_to_table table d cur slot (cur2 - cur) with
            | .error e => .error e
            | .ok table2 => populate_table_day_go offset d table2 cur2 rest
      | (cur2, none) =>
          match add_to_table table d cur slot (cur2 - cur) with
          | .error e => .error e
          | .ok table2 => populate_table_day_go offset d table2 cur2 rest := rfl

theorem populate_table_day_go_spec :
    ∀ (day : List Slot) (offset : Int) (d w : Nat) (table : Table)
      (cur : Nat) (table2 : Table),
      populate_table_day_go offset d table cur day = .ok table2 →
      (∀ row ∈ table, row.data.length = w) →
      (d < w → ∀ r, cur ≤ r → r < table.length → cell table r d = some none) →
      (∀ first, day.head? = some first → ∀ h0 : cur < table.length,
        (table[cur]).time + offset < first.nlEnd) →
      List.Chain' (fun a b => a.nlEnd < b.nlEnd) day →
      (table2.length = table.length ∧
       (∀ row ∈ table2, row.data.length = w) ∧
       (∀ r c : Nat, r < cur ∨ c ≠ d → cell table2 r c = cell table r c) ∧
       (∀ r : Nat, (table2[r]?).map Row.time = (table[r]?).map Row.time) ∧
       ∃ endc, cur ≤ endc ∧
         col_tiling table2 d cur day endc ∧
         (∀ r : Nat, endc ≤ r → cell table2 r d = cell table r d)) := by
  intro day
  induction day with
  | nil =>
      intro offset d w table cur table2 hok hw _ _ _
      replace hok : Except.ok table = .ok table2 := hok
      injection hok with hok
      subst hok
      exact ⟨rfl, hw, fun _ _ _ => rfl, fun _ => rfl, cur, le_refl cur,
        rfl, fun _ _ => rfl⟩
  | cons slot rest ih =>
      intro offset d w table cur table2 hok hw hcol hfirst hchain
      rw [populate_table_day_go] at hok
      rcases hadv : advance_cursor table offset slot.nlEnd cur with ⟨cur2, orow⟩
      rw [hadv] at hok
      obtain ⟨ha1, ha2, ha3, ha4⟩ := advance_cursor_spec table offset slot.nlEnd cur
      rw [hadv] at ha1 ha2 ha3 ha4
      cases orow with
      | some row =>
          replace hok : (if row.time + offset > slot.nlEnd then
              (Except.error Err.scheduleConsistency : Except Err Table)
            else match add_to_table table d cur slot (cur2 - cur) with
              | .error e => .error e
              | .ok t1 => populate_table_day_go offset d t1 cur2 rest) =
              .ok table2 := hok
          by_cases hgt : row.time + offset > slot.nlEnd
          · rw [if_pos hgt] at hok
            exact absurd hok (by simp)
          · rw [if_neg hgt] at hok
            cases hadd : add_to_table table d cur slot (cur2 - cur) with
            | error e =>
                rw [hadd] at hok
                exact absurd hok (by simp)
            | ok t1 =>
                rw [hadd] at hok
                obtain ⟨hr0, hd0, hlen1, hcell1, hframe1, htime1, hwidth1⟩ :=
                  add_to_table_ok table d cur slot (cur2 - cur) t1 hadd
                obtain ⟨hlt2x, heq2x, hnl2⟩ := ha3 row rfl
                have hlt2 : cur2 < table.length := hlt2x
                have heq2 : table[cur2] = row := heq2x
                have ha1c : cur ≤ cur2 := ha1
                have hcc : cur < cur2 := by
                  rcases Nat.lt_or_ge cur cur2 with h1 | h1
                  · exact h1
                  · exfalso
                    have hce : cur2 = cur := by omega
                    subst hce
                    exact hnl2 (heq2 ▸ hfirst slot rfl hlt2)
                have hdw : d < w := by
                  rw [hw table[cur] (List.getElem_mem hr0)] at hd0
                  exact hd0
                have heqt : row.time + offset = slot.nlEnd := by omega
                have hchain2 := List.chain'_cons'.mp hchain
                obtain ⟨hlen2, hw2, hframe2, htime2, endc, hendc, htile, hres⟩ :=
                  ih offset d w t1 cur2 table2 hok (hwidth1 w hw)
                    (by
                      intro hdw2 r hr1 hr2
                      rw [hframe1 r d (Or.inl (by omega))]
                      exact hcol hdw2 r (by omega) (by omega))
                    (by
                      intro first hh h0
                      have ht2 : (t1[cur2]).time = (table[cur2]).time := by
                        have ht := htime1 cur2
                        rw [List.getElem?_eq_getElem h0,
                          List.getElem?_eq_getElem hlt2] at ht
                        simpa using ht
                      rw [ht2, heq2, heqt]
                      exact hchain2.1 first hh)
                    hchain2.2
                refine ⟨by rw [hlen2, hlen1], hw2, ?_, ?_, endc, by omega,
                  ?_, ?_⟩
                · intro r c hrc
                  rw [hframe2 r c (hrc.imp (fun h1 => by omega) id)]
                  exact hframe1 r c (hrc.imp (fun h1 => by omega) id)
                · intro r
                  rw [htime2 r]
                  exact htime1 r
                · refine ⟨cur2 - cur, by omega, ?_, ?_, ?_⟩
                  · rw [hframe2 cur d (Or.inl hcc)]
                    exact hcell1
                  · intro k hk1 hk2
                    rw [hframe2 (cur + k) d (Or.inl (by omega))]
                    rw [hframe1 (cur + k) d (Or.inl (by omega))]
                    exact hcol hdw (cur + k) (by omega) (by omega)
                  · rw [show cur + (cur2 - cur) = cur2 by omega]
                    exact htile
                · intro r hr
                  rw [hres r hr]
                  exact hframe1 r d (Or.inl (by omega))
      | none =>
          replace hok : (match add_to_table table d cur slot (cur2 - cur) with
              | .error e => (.error e : Except Err Table)
              | .ok t1 => populate_table_day_go offset d t1 cur2 rest) =
              .ok table2 := hok
          cases hadd : add_to_table table d cur slot (cur2 - cur) with
          | error e =>
              rw [hadd] at hok
              exact absurd hok (by simp)
          | ok t1 =>
              rw [hadd] at hok
              replace hok : populate_table_day_go offset d t1 cur2 rest =
                .ok table2 := hok
              obtain ⟨hr0, hd0, hlen1, hcell1, hframe1, htime1, hwidth1⟩ :=
                add_to_table_ok table d cur slot (cur2 - cur) t1 hadd
              obtain ⟨hge2x, hcur2x⟩ := ha4 rfl
              have hge2 : table.length ≤ cur2 := hge2x
              have hc2len : cur2 = table.length := hcur2x (by omega)
              have hdw : d < w := by
                rw [hw table[cur] (List.getElem_mem hr0)] at hd0
                exact hd0
              cases rest with
              | cons slot2 rest2 =>
                  exfalso
                  rw [populate_table_day_go_cons] at hok
                  have hadv2 : advance_cursor t1 offset slot2.nlEnd cur2 =
                      (cur2, none) := by
                    rw [advance_cursor, dif_neg (by omega)]
                  rw [hadv2] at hok
                  replace hok : (match add_to_table t1 d cur2 slot2
                      (cur2 - cur2) with
                      | .error e => (.error e : Except Err Table)
                      | .ok t3 => populate_table_day_go offset d t3 cur2 rest2) =
                      .ok table2 := hok
                  have hadd2 : add_to_table t1 d cur2 slot2 (cur2 - cur2) =
                      .error .indexError := by
                    rw [add_to_table, List.getElem?_eq_none (by omega)]
                  rw [hadd2] at hok
                  exact absurd hok (by simp)
              | nil =>
                  replace hok : Except.ok t1 = .ok table2 := hok
                  injection hok with hok
                  subst hok
                  refine ⟨hlen1, hwidth1 w hw, ?_, htime1, cur2, by omega,
                    ?_, ?_⟩
                  · intro r c hrc
                    exact hframe1 r c (hrc.imp (fun h1 => by omega) id)
                  · refine ⟨cur2 - cur, by omega, hcell1, ?_,
                      show cur2 = cur + (cur2 - cur) by omega⟩
                    intro k hk1 hk2
                    rw [hframe1 (cur + k) d (Or.inl (by omega))]
                    exact hcol hdw (cur + k) (by omega) (by omega)
                  · intro r hr
                    rw [cell, cell, List.getElem?_eq_none (by omega),
                      List.getElem?_eq_none (by omega)]

theorem col_tiling_congr (table1 table2 : Table) (d : Nat)
    (hcells : ∀ r : Nat, cell table2 r d = cell table1 r d) :
    ∀ (day : List Slot) (base e : Nat),
      col_tiling table1 d base day e → col_tiling table2 d base day e := by
  intro day
  induction day with
  | nil =>
      intro base e h
      exact h
  | cons slot rest ih =>
      intro base e h
      obtain ⟨s, hs, hc, hint, hrest⟩ := h
      exact ⟨s, hs, by rw [hcells]; exact hc,
        fun k hk1 hk2 => by rw [hcells]; exact hint k hk1 hk2,
        ih (base + s) e hrest⟩

theorem col_tiling_populated (table : Table) (d : Nat) :
    ∀ (day : List Slot) (base e : Nat),
      col_tiling table d base day e →
      base ≤ e ∧
      ∀ r slot s, base ≤ r → r < e →
        cell table r d = some (some (slot, s)) →
        ((∀ k, 0 < k → k < s → cell table (r + k) d = some none) ∧
         r + s ≤ e ∧
         (∀ r2 slot2 s2, cell table r2 d = some (some (slot2, s2)) →
            r < r2 → r2 < e → r + s ≤ r2)) := by
  intro day
  induction day with
  | nil =>
      intro base e h
      rw [col_tiling] at h
      exact ⟨by omega, fun r slot s h1 h2 _ => absurd h2 (by omega)⟩
  | cons slot0 rest ih =>
      intro base e h
      obtain ⟨s0, hs0, hc0, hint0, hrest⟩ := h
      obtain ⟨hbe, ihp⟩ := ih (base + s0) e hrest
      refine ⟨by omega, ?_⟩
      intro r slot s hr1 hr2 hc
      rcases Nat.lt_or_ge r (base + s0) with hlow | hhigh
      · rcases Nat.eq_or_lt_of_le hr1 with heq | hgt
        · have hrb : r = base := heq.symm
          subst hrb
          rw [hc0] at hc
          have hcp : (slot0, s0) = (slot, s) :=
            Option.some.inj (Option.some.inj hc)
          have hss : s0 = s := congrArg Prod.snd hcp
          have hslot : slot0 = slot := congrArg Prod.fst hcp
          subst hss
          refine ⟨hint0, by omega, ?_⟩
          intro r2 slot2 s2 hc2 hgt2 hlt2
          rcases Nat.lt_or_ge r2 (r + s0) with h2low | h2high
          · exfalso
            have hin := hint0 (r2 - r) (by omega) (by omega)
            rw [show r + (r2 - r) = r2 by omega] at hin
            rw [hin] at hc2
            exact Option.noConfusion (Option.some.inj hc2)
          · exact h2high
        · exfalso
          have hin := hint0 (r - base) (by omega) (by omega)
          rw [show base + (r - base) = r by omega] at hin
          rw [hin] at hc
          exact Option.noConfusion (Option.some.inj hc)
      · obtain ⟨hint, hre, hnov⟩ := ihp r slot s hhigh hr2 hc
        exact ⟨hint, hre, hnov⟩

theorem cell_some_of_width (table : Table) (w r c : Nat)
    (hw : ∀ row ∈ table, row.data.length = w) (hr : r < table.length)
    (hc : c < w) : ∃ v, cell table r c = some v := by
  rw [cell, List.getElem?_eq_getElem hr]
  have hlen : c < (table[r]).data.length := by
    rw [hw table[r] (List.getElem_mem hr)]
    exact hc
  exact ⟨(table[r]).data[c], by
    show (table[r]).data[c]? = _
    rw [List.getElem?_eq_getElem hlen]⟩

theorem empty_table_width (nlstart : Int) (partitions : Finset Int)
    (n_cols : Nat) :
    ∀ row ∈ empty_table nlstart partitions n_cols,
      row.data.length = n_cols := by
  intro row hrow
  rw [empty_table] at hrow
  obtain ⟨i, _, hi⟩ := List.mem_map.mp hrow
  rw [← hi]
  exact List.length_replicate n_cols none

theorem empty_table_cell (nlstart : Int) (partitions : Finset Int)
    (n_cols : Nat) (r c : Nat) :
    cell (empty_table nlstart partitions n_cols) r c = some none ∨
    cell (empty_table nlstart partitions n_cols) r c = none := by
  rw [cell, empty_table, List.getElem?_map]
  cases hg : (partitions.sort (· ≤ ·))[r]? with
  | none => exact Or.inr rfl
  | some i =>
      by_cases hc : c < n_cols
      · left
        show (List.replicate n_cols (none : Option (Slot × Nat)))[c]? = some none
        rw [List.getElem?_eq_getElem (by simpa using hc),
          List.getElem_replicate]
      · right
        show (List.replicate n_cols (none : Option (Slot × Nat)))[c]? = none
        exact List.getElem?_eq_none (by simpa using hc)

theorem empty_table_no_slot (nlstart : Int) (partitions : Finset Int)
    (n_cols : Nat) (r c : Nat) (x : Slot × Nat) :
    cell (empty_table nlstart partitions n_cols) r c ≠ some (some x) := by
  rcases empty_table_cell nlstart partitions n_cols r c with h | h <;>
    rw [h] <;> simp

theorem table_cell_day (table : Table) (r c : Nat) :
    table_cell table r (SCHEDULE_DAY_OFFSET + c) = cell table r c := by
  rw [table_cell, show SCHEDULE_DAY_OFFSET + c - SCHEDULE_DAY_OFFSET = c by
    rw [SCHEDULE_DAY_OFFSET]; omega]

theorem populate_table_days_nil (table : Table) (i : Nat) :
    populate_table_days table i [] = .ok table := rfl

theorem populate_table_days_cons (table : Table) (i : Nat) (day : List Slot)
    (rest : List (List Slot)) :
    populate_table_days table i (day :: rest) =
      match populate_table_day table i day with
      | .error e => .error e
      | .ok t2 => populate_table_days t2 (i + 1) rest := rfl

theorem populate_table_days_spec :
    ∀ (rest : List (List Slot)) (i : Nat) (table table2 : Table) (w : Nat),
      populate_table_days table i rest = .ok table2 →
      (∀ row ∈ table, row.data.length = w) →
      (∀ day ∈ rest, List.Chain' (fun a b => a.nlEnd < b.nlEnd) day) →
      (∀ (k : Nat) (day : List Slot) (first : Slot), rest[k]? = some day →
        day.head? = some first → ∀ h0 : 0 < table.length,
        (table[0]).time + DAY * ((i + k : Nat) : Int) < first.nlEnd) →
      (∀ c r : Nat, i ≤ c → r < table.length →
        cell table r c = some none ∨ cell table r c = none) →
      (table2.length = table.length ∧
       (∀ row ∈ table2, row.data.length = w) ∧
       (∀ r : Nat, (table2[r]?).map Row.time = (table[r]?).map Row.time) ∧
       (∀ r c : Nat, c < i ∨ i + rest.length ≤ c →
         cell table2 r c = cell table r c) ∧
       (∀ (k : Nat) (day : List Slot), rest[k]? = some day →
         ∃ endc, col_tiling table2 (i + k) 0 day endc ∧
           ∀ r : Nat, endc ≤ r →
             cell table2 r (i + k) = cell table r (i + k))) := by
  intro rest
  induction rest with
  | nil =>
      intro i table table2 w hok hw _ _ _
      replace hok : Except.ok table = .ok table2 := hok
      injection hok with hok
      subst hok
      refine ⟨rfl, hw, fun _ => rfl, fun _ _ _ => rfl, fun k day hk => ?_⟩
      simp at hk
  | cons day rest2 ih =>
      intro i table table2 w hok hw hch hfirst hcols
      rw [populate_table_days_cons] at hok
      cases hd : populate_table_day table i day with
      | error e =>
          rw [hd] at hok
          exact absurd hok (by simp)
      | ok t1 =>
          rw [hd] at hok
          replace hok : populate_table_days t1 (i + 1) rest2 = .ok table2 := hok
          have hd2 : populate_table_day_go (DAY * i) i table 0 day = .ok t1 := hd
          obtain ⟨hlen1, hw1, hframe1, htime1, endc, hendc0, htile, hres⟩ :=
            populate_table_day_go_spec day (DAY * i) i w table 0 t1 hd2 hw
              (by
                intro hiw r hr1 hr2
                rcases hcols i r (le_refl i) hr2 with h | h
                · exact h
                · exfalso
                  obtain ⟨v, hv⟩ := cell_some_of_width table w r i hw hr2 hiw
                  rw [hv] at h
                  exact Option.noConfusion h)
              (by
                intro first hh h0
                have hf := hfirst 0 day first (by simp) hh h0
                simpa using hf)
              (hch day (List.mem_cons_self day rest2))
          obtain ⟨hlen2, hw2, htime2, hframe2, htiles2⟩ :=
            ih (i + 1) t1 table2 w hok hw1
              (fun day2 hd3 => hch day2 (List.mem_cons_of_mem day hd3))
              (by
                intro k day2 first hk hh h0
                have h0t : 0 < table.length := by omega
                have ht0 : (t1[0]).time = (table[0]).time := by
                  have ht := htime1 0
                  rw [List.getElem?_eq_getElem h0,
                    List.getElem?_eq_getElem h0t] at ht
                  simpa using ht
                rw [ht0, show i + 1 + k = i + (k + 1) from by omega]
                exact hfirst (k + 1) day2 first (by simpa using hk) hh h0t)
              (by
                intro c r hc hr
                rw [hframe1 r c (Or.inr (by omega))]
                exact hcols c r (by omega) (by omega))
          refine ⟨hlen2.trans hlen1, hw2,
            fun r => (htime2 r).trans (htime1 r), ?_, ?_⟩
          · intro r c hc
            have hstep : cell table2 r c = cell t1 r c := by
              refine hframe2 r c ?_
              rcases hc with h1 | h1
              · exact Or.inl (by omega)
              · refine Or.inr ?_
                simp only [List.length_cons] at h1
                omega
            rw [hstep]
            exact hframe1 r c (Or.inr (by
              rcases hc with h1 | h1
              · omega
              · simp only [List.length_cons] at h1
                omega))
          · intro k day2 hk
            cases k with
            | zero =>
                replace hk : day = day2 := by simpa using hk
                subst hk
                refine ⟨endc, ?_, ?_⟩
                · rw [Nat.add_zero]
                  refine col_tiling_congr t1 table2 i ?_ day 0 endc htile
                  intro r
                  exact hframe2 r i (Or.inl (by omega))
                · intro r hr
                  rw [Nat.add_zero]
                  rw [hframe2 r i (Or.inl (by omega))]
                  exact hres r hr
            | succ k2 =>
                obtain ⟨endc2, htile2, hres2⟩ :=
                  htiles2 k2 day2 (by simpa using hk)
                refine ⟨endc2, ?_, ?_⟩
                · rw [show i + (k2 + 1) = i + 1 + k2 by omega]
                  exact htile2
                · intro r hr
                  rw [show i + (k2 + 1) = i + 1 + k2 by omega]
                  rw [hres2 r hr]
                  exact hframe1 r (i + 1 + k2) (Or.inr (by omega))

theorem fill_between_chain (e : Int) :
    ∀ (l : List FillSlot) (a : FillSlot),
      List.Chain' (fun p q => p.rend ≤ q.rstart) (a :: l) →
      List.Chain' (fun p q => p.rend = q.rstart) (fill_between (a :: l) e) ∧
      (fill_between (a :: l) e).head? = some a := by
  intro l
  induction l with
  | nil =>
      intro a _
      by_cases h : a.rend < e
      · rw [fill_between, if_pos h]
        exact ⟨List.chain'_cons.mpr ⟨rfl, List.chain'_singleton _⟩, rfl⟩
      · rw [fill_between, if_neg h]
        exact ⟨List.chain'_singleton _, rfl⟩
  | cons b rest ih =>
      intro a hc
      obtain ⟨hab, htail⟩ := List.chain'_cons.mp hc
      obtain ⟨ihc, ihh⟩ := ih b htail
      by_cases h : a.rend < b.rstart
      · rw [fill_between, if_pos h]
        refine ⟨List.chain'_cons.mpr ⟨rfl, ?_⟩, rfl⟩
        refine List.chain'_cons'.mpr ⟨?_, ihc⟩
        intro y hy
        rw [ihh] at hy
        injection hy with hy
        rw [← hy]
      · rw [fill_between, if_neg h]
        refine ⟨List.chain'_cons'.mpr ⟨?_, ihc⟩, rfl⟩
        intro y hy
        rw [ihh] at hy
        injection hy with hy
        rw [← hy]
        omega

/-! ## Claim theorems -/

/-- Claim C8: for every ordered non-overlapping input list and every range
with start not after end, `fill` succeeds and its output is contiguous and
gap-free: every adjacent pair `(p, q)` satisfies
`p.range_end() = q.range_start()`. -/
theorem fill_contiguity :
    ∀ (timeslots : List FillSlot) (s e : Int),
      List.Chain' (fun p q => p.rend ≤ q.rstart) timeslots →
      s ≤ e →
      ∃ res, fill timeslots s e = .ok res ∧
        List.Chain' (fun p q => p.rend = q.rstart) res := by
  intro timeslots s e hord hse
  cases timeslots with
  | nil =>
      refine ⟨[⟨s, e, true⟩], ?_, List.chain'_singleton _⟩
      rw [fill, if_neg (by omega)]
  | cons first rest =>
      obtain ⟨hchain, hhead⟩ := fill_between_chain e rest first hord
      by_cases hpre : s < first.rstart
      · refine ⟨⟨s, first.rstart, true⟩ :: fill_between (first :: rest) e,
          ?_, ?_⟩
        · rw [fill, if_neg (by omega)]
          simp only [hpre, if_pos]
          rfl
        · refine List.chain'_cons'.mpr ⟨?_, hchain⟩
          intro y hy
          rw [hhead] at hy
          injection hy with hy
          rw [← hy]
      · refine ⟨fill_between (first :: rest) e, ?_, hchain⟩
        rw [fill, if_neg (by omega)]
        simp only [hpre, if_neg, not_false_iff]
        rfl

/-- Witness for C8: filling `[2,3) , [4,5)` over `[0, 9)` yields a chained
sequence with fillers at the front, middle and back. -/
theorem fill_contiguity_witness :
    List.Chain' (fun p q => p.rend ≤ q.rstart)
      ([⟨2, 3, false⟩, ⟨4, 5, false⟩] : List FillSlot) ∧
    (0 : Int) ≤ 9 ∧
    ∃ res, fill [⟨2, 3, false⟩, ⟨4, 5, false⟩] 0 9 = .ok res ∧
      List.Chain' (fun p q => p.rend = q.rstart) res := by
  refine ⟨?_, by norm_num, ?_⟩
  · exact List.chain'_cons.mpr ⟨by norm_num, List.chain'_singleton _⟩
  · exact fill_contiguity [⟨2, 3, false⟩, ⟨4, 5, false⟩] 0 9
      (List.chain'_cons.mpr ⟨by norm_num, List.chain'_singleton _⟩)
      (by norm_num)

/-- Claim C10: on the empty input list `split_days` returns normally with
exactly one (empty) day list and the row-offset set `{0}`: the final open
day is appended unconditionally, with no empty-day check, so no
`ScheduleConsistencyError` is raised. -/
theorem split_days_empty_input :
    ∀ nlstart : Int, split_days nlstart [] = .ok ([[]], {0}) :=
  fun _ => rfl

/-- Claim C1: whenever a day rotation occurs (`rotate_day` on the nonempty
list of the day being closed), the closed day's last slot is carried over
as the sole initial element of the new day's list if and only if its naive
local end time is strictly after the new day's start `day_end`; on the
concrete midnight-straddling input of Scenario D the slot `23:00–01:00`
therefore ends day one's list and starts day two's. -/
theorem rotate_day_carries_straddling_slot :
    (∀ (day_end : Int) (day_list : List Slot)
        (done_day_lists : List (List Slot)) (last_show : Slot),
        day_list.getLast? = some last_show →
        rotate_day day_end day_list done_day_lists =
          .ok (done_day_lists ++ [day_list],
               if last_show.nlEnd > day_end then [last_show] else [])) ∧
    split_days 0 [⟨1380, 1500⟩, ⟨1500, 1600⟩] =
      .ok ([[⟨1380, 1500⟩], [⟨1380, 1500⟩, ⟨1500, 1600⟩]], {0, 60, 1380}) := by
  constructor
  · intro day_end day_list done_day_lists last_show h
    simp [rotate_day, h]
  · have h1 : rotate_loop 1380 0 (0 + DAY) [] [] = .ok (0, 0 + DAY, [], []) :=
      rotate_loop_exit 1380 0 (0 + DAY) [] [] (by norm_num [DAY])
    have h2 : rotate_day (0 + DAY) [⟨1380, 1500⟩] [] =
        .ok ([[⟨1380, 1500⟩]], [⟨1380, 1500⟩]) := by
      rw [rotate_day]
      norm_num [DAY]
    have h3 : rotate_loop 1500 0 (0 + DAY) [⟨1380, 1500⟩] [] =
        .ok (0 + DAY, 0 + DAY + DAY, [⟨1380, 1500⟩], [[⟨1380, 1500⟩]]) := by
      rw [rotate_loop_step 1500 0 (0 + DAY) [⟨1380, 1500⟩] [⟨1380, 1500⟩] []
        [[⟨1380, 1500⟩]] (by norm_num [DAY]) h2]
      exact rotate_loop_exit 1500 (0 + DAY) (0 + DAY + DAY) [⟨1380, 1500⟩]
        [[⟨1380, 1500⟩]] (by norm_num [DAY])
    rw [split_days, split_days_go_cons_eq, h1]
    show split_days_go 0 (0 + DAY) [⟨1380, 1500⟩] []
      (if (1380 : Int) > 0 then insert ((1380 : Int) - 0) {0} else {0})
      [⟨1500, 1600⟩] = _
    rw [if_pos (by norm_num)]
    rw [split_days_go_cons_eq, h3]
    show split_days_go (0 + DAY) (0 + DAY + DAY)
      ([⟨1380, 1500⟩] ++ [⟨1500, 1600⟩]) [[⟨1380, 1500⟩]]
      (if (1500 : Int) > 0 + DAY then insert ((1500 : Int) - (0 + DAY))
        (insert ((1380 : Int) - 0) {0}) else insert ((1380 : Int) - 0) {0})
      [] = _
    rw [if_pos (by norm_num [DAY])]
    rw [split_days_go]
    norm_num [DAY]
    decide

/-- Witness for C1: a concrete rotation at local midnight carrying over the
straddling slot `23:00–01:00`. -/
theorem rotate_day_carries_straddling_slot_witness :
    ([⟨1380, 1500⟩] : List Slot).getLast? = some ⟨1380, 1500⟩ ∧
    rotate_day 1440 [⟨1380, 1500⟩] [] =
      .ok ([[⟨1380, 1500⟩]], [⟨1380, 1500⟩]) := by
  refine ⟨rfl, ?_⟩
  have h := rotate_day_carries_straddling_slot.1 1440 [⟨1380, 1500⟩] []
    ⟨1380, 1500⟩ rfl
  simpa using h

/-- Claim C2: `split_days` fails exactly when some day rotation would
close a day whose accumulated list is empty (the closed days of the
check-free run `split_days_all` are its result's `dropLast`); on every
normal return the result equals the check-free run's and every closed
day list is nonempty. -/
theorem split_days_error_iff_empty_closed_day :
    ∀ (nlstart : Int) (data : List Slot),
      ((∃ r, split_days nlstart data = .ok r) ↔
        ∀ l ∈ (split_days_all nlstart data).1.dropLast, l ≠ []) ∧
      (∀ r, split_days nlstart data = .ok r →
        r = split_days_all nlstart data ∧ ∀ l ∈ r.1.dropLast, l ≠ []) := by
  intro nlstart data
  simp only [split_days, split_days_all]
  have h := split_days_go_spec data nlstart (nlstart + DAY) [] [] {0} (by simp)
  refine ⟨h.1, fun r hr => ?_⟩
  have heq := h.2 r hr
  refine ⟨heq, ?_⟩
  rw [heq]
  exact h.1.mp ⟨r, hr⟩

/-- Witness for C2: a successful one-slot run whose single day list is the
final (open) day, so every closed day list is trivially nonempty. -/
theorem split_days_error_iff_empty_closed_day_witness :
    split_days 0 [⟨60, 120⟩] = .ok ([[⟨60, 120⟩]], {0, 60}) ∧
    ([[⟨60, 120⟩]], ({0, 60} : Finset Int)) = split_days_all 0 [⟨60, 120⟩] ∧
    ∀ l ∈ ([[⟨60, 120⟩]] : List (List Slot)).dropLast, l ≠ [] := by
  have hs : split_days 0 [⟨60, 120⟩] = .ok ([[⟨60, 120⟩]], {0, 60}) := by
    simp [split_days, split_days_go, rotate_loop, DAY]
    decide
  have h := (split_days_error_iff_empty_closed_day 0 [⟨60, 120⟩]).2 _ hs
  exact ⟨hs, h.1, h.2⟩

/-- Claim C4 (amended): after `populate_table` succeeds on an
`empty_table` grid and day lists whose slots have strictly increasing
naive local end times within each day, the first of them ending strictly
after the day's first row time (with the day offset applied), each day's
slots are written as `(slot, span)` pairs with spans of at least one row
tiling the column `SCHEDULE_DAY_OFFSET + d` from row 0 (`col_tiling`);
for every populated cell `(slot, span)` the subsequent `span - 1` rows of
that column are `None`, and no two populated spans in the same column
overlap. -/
theorem populate_table_span_consistency :
    ∀ (nlstart : Int) (partitions : Finset Int) (n_cols : Nat)
      (data_lists : List (List Slot)) (table2 : Table),
      populate_table (empty_table nlstart partitions n_cols) data_lists =
        .ok table2 →
      (∀ day ∈ data_lists, List.Chain' (fun a b => a.nlEnd < b.nlEnd) day) →
      (∀ (d : Nat) (day : List Slot) (first : Slot) (row0 : Row),
        data_lists[d]? = some day → day.head? = some first →
        (empty_table nlstart partitions n_cols)[0]? = some row0 →
        row0.time + DAY * (d : Int) < first.nlEnd) →
      ((∀ (d : Nat) (day : List Slot), data_lists[d]? = some day →
          ∃ endc, col_tiling table2 d 0 day endc) ∧
       (∀ (r c : Nat) (slot : Slot) (s : Nat),
          table_cell table2 r (SCHEDULE_DAY_OFFSET + c) =
            some (some (slot, s)) →
          ∀ k, 0 < k → k < s →
            table_cell table2 (r + k) (SCHEDULE_DAY_OFFSET + c) = some none) ∧
       (∀ (r1 r2 c : Nat) (slot1 slot2 : Slot) (s1 s2 : Nat),
          table_cell table2 r1 (SCHEDULE_DAY_OFFSET + c) =
            some (some (slot1, s1)) →
          table_cell table2 r2 (SCHEDULE_DAY_OFFSET + c) =
            some (some (slot2, s2)) →
          r1 < r2 → r1 + s1 ≤ r2)) := by
  intro nlstart partitions n_cols data_lists table2 hok hch hfirst
  obtain ⟨hlen, hw, htime, hframe, htiles⟩ :=
    populate_table_days_spec data_lists 0
      (empty_table nlstart partitions n_cols) table2 n_cols hok
      (empty_table_width nlstart partitions n_cols) hch
      (by
        intro k day first hk hh h0
        rw [show (0 + k : Nat) = k from by omega]
        exact hfirst k day first _ hk hh (List.getElem?_eq_getElem h0))
      (fun c r _ _ => empty_table_cell nlstart partitions n_cols r c)
  have htiles2 : ∀ (c : Nat) (day : List Slot), data_lists[c]? = some day →
      ∃ endc, col_tiling table2 c 0 day endc ∧
        ∀ r : Nat, endc ≤ r →
          cell table2 r c = cell (empty_table nlstart partitions n_cols) r c := by
    intro c day hk
    obtain ⟨endc, htile, hres⟩ := htiles c day hk
    rw [show (0 + c : Nat) = c from by omega] at htile hres
    exact ⟨endc, htile, hres⟩
  have hinC : ∀ (c r : Nat) (x : Slot × Nat),
      cell table2 r c = some (some x) → c < data_lists.length := by
    intro c r x hx
    by_contra hc
    rw [hframe r c (Or.inr (by omega))] at hx
    exact empty_table_no_slot nlstart partitions n_cols r c x hx
  have hltend : ∀ (c : Nat) (endc : Nat),
      (∀ r : Nat, endc ≤ r →
        cell table2 r c = cell (empty_table nlstart partitions n_cols) r c) →
      ∀ (r : Nat) (x : Slot × Nat), cell table2 r c = some (some x) →
        r < endc := by
    intro c endc hres r x hx
    by_contra hr
    rw [hres r (by omega)] at hx
    exact empty_table_no_slot nlstart partitions n_cols r c x hx
  refine ⟨?_, ?_, ?_⟩
  · intro d day hk
    obtain ⟨endc, htile, _⟩ := htiles2 d day hk
    exact ⟨endc, htile⟩
  · intro r c slot s h k hk1 hk2
    rw [table_cell_day] at h ⊢
    have hc := hinC c r (slot, s) h
    obtain ⟨endc, htile, hres⟩ :=
      htiles2 c data_lists[c] (List.getElem?_eq_getElem hc)
    have hrlt := hltend c endc hres r (slot, s) h
    obtain ⟨_, hp⟩ := col_tiling_populated table2 c data_lists[c] 0 endc htile
    exact (hp r slot s (Nat.zero_le r) hrlt h).1 k hk1 hk2
  · intro r1 r2 c slot1 slot2 s1 s2 h1 h2 hlt
    rw [table_cell_day] at h1 h2
    have hc := hinC c r1 (slot1, s1) h1
    obtain ⟨endc, htile, hres⟩ :=
      htiles2 c data_lists[c] (List.getElem?_eq_getElem hc)
    have hr1lt := hltend c endc hres r1 (slot1, s1) h1
    have hr2lt := hltend c endc hres r2 (slot2, s2) h2
    obtain ⟨_, hp⟩ := col_tiling_populated table2 c data_lists[c] 0 endc htile
    exact (hp r1 slot1 s1 (Nat.zero_le r1) hr1lt h1).2.2 r2 slot2 s2 h2 hlt hr2lt

/-- Witness for C4: a two-row table and one day of two chained slots, the
second straddling past the tabulated boundary. -/
theorem populate_table_span_consistency_witness :
    populate_table (empty_table 0 {0, 60} 1) [[⟨0, 60⟩, ⟨30, 120⟩]] =
      .ok [⟨0, [some (⟨0, 60⟩, 1)]⟩, ⟨60, [some (⟨30, 120⟩, 1)]⟩] ∧
    (∀ day ∈ ([[⟨0, 60⟩, ⟨30, 120⟩]] : List (List Slot)),
      List.Chain' (fun a b => a.nlEnd < b.nlEnd) day) ∧
    ((∀ (d : Nat) (day : List Slot),
        ([[⟨0, 60⟩, ⟨30, 120⟩]] : List (List Slot))[d]? = some day →
        ∃ endc, col_tiling [⟨0, [some (⟨0, 60⟩, 1)]⟩,
          ⟨60, [some (⟨30, 120⟩, 1)]⟩] d 0 day endc) ∧
     (∀ (r c : Nat) (slot : Slot) (s : Nat),
        table_cell [⟨0, [some (⟨0, 60⟩, 1)]⟩, ⟨60, [some (⟨30, 120⟩, 1)]⟩]
          r (SCHEDULE_DAY_OFFSET + c) = some (some (slot, s)) →
        ∀ k, 0 < k → k < s →
          table_cell [⟨0, [some (⟨0, 60⟩, 1)]⟩, ⟨60, [some (⟨30, 120⟩, 1)]⟩]
            (r + k) (SCHEDULE_DAY_OFFSET + c) = some none) ∧
     (∀ (r1 r2 c : Nat) (slot1 slot2 : Slot) (s1 s2 : Nat),
        table_cell [⟨0, [some (⟨0, 60⟩, 1)]⟩, ⟨60, [some (⟨30, 120⟩, 1)]⟩]
          r1 (SCHEDULE_DAY_OFFSET + c) = some (some (slot1, s1)) →
        table_cell [⟨0, [some (⟨0, 60⟩, 1)]⟩, ⟨60, [some (⟨30, 120⟩, 1)]⟩]
          r2 (SCHEDULE_DAY_OFFSET + c) = some (some (slot2, s2)) →
        r1 < r2 → r1 + s1 ≤ r2)) := by
  have hsort : ({0, 60} : Finset Int).sort (· ≤ ·) = [0, 60] := by
    rw [show ({0, 60} : Finset Int) = insert 0 {60} from rfl]
    rw [Finset.sort_insert]
    · simp
    · intro b hb
      simp at hb
      omega
    · simp
  have hev : populate_table (empty_table 0 {0, 60} 1)
      [[⟨0, 60⟩, ⟨30, 120⟩]] =
      .ok [⟨0, [some (⟨0, 60⟩, 1)]⟩, ⟨60, [some (⟨30, 120⟩, 1)]⟩] := by
    rw [empty_table, hsort]
    simp [populate_table, populate_table_days, populate_table_day,
      populate_table_day_go, advance_cursor, add_to_table, DAY]
  have hch : ∀ day ∈ ([[⟨0, 60⟩, ⟨30, 120⟩]] : List (List Slot)),
      List.Chain' (fun a b => a.nlEnd < b.nlEnd) day := by
    intro day hday
    simp only [List.mem_singleton] at hday
    subst hday
    exact List.chain'_cons.mpr ⟨by norm_num, List.chain'_singleton _⟩
  refine ⟨hev, hch, ?_⟩
  exact populate_table_span_consistency 0 {0, 60} 1 [[⟨0, 60⟩, ⟨30, 120⟩]]
    [⟨0, [some (⟨0, 60⟩, 1)]⟩, ⟨60, [some (⟨30, 120⟩, 1)]⟩] hev hch
    (by
      intro d day first row0 hd hh h0
      rcases d with _ | d
      · replace hd : [⟨0, 60⟩, ⟨30, 120⟩] = day := by simpa using hd
        subst hd
        replace hh : (⟨0, 60⟩ : Slot) = first := by simpa using hh
        subst hh
        replace h0 : (⟨0, [none]⟩ : Row) = row0 := by
          rw [empty_table, hsort] at h0
          simpa using h0
        subst h0
        norm_num [DAY]
      · simp at hd)

/-- Counterexample to C4 as stated: the day
`[(0,60), (30,60), (45,120)]` has slots of strictly positive naive local
duration and `populate_table` succeeds on an `empty_table` grid with rows
at 0, 60 and 120, yet the slot `(30,60)` is written with span zero and
then overwritten by the following slot's write to the same row, so it
appears nowhere in the populated grid. -/
theorem populate_table_span_claim_counterexample :
    (∀ s ∈ ([⟨0, 60⟩, ⟨30, 60⟩, ⟨45, 120⟩] : List Slot),
      s.nlStart < s.nlEnd) ∧
    populate_table (empty_table 0 {0, 60, 120} 1)
      [[⟨0, 60⟩, ⟨30, 60⟩, ⟨45, 120⟩]] =
      .ok [⟨0, [some (⟨0, 60⟩, 1)]⟩, ⟨60, [some (⟨45, 120⟩, 1)]⟩,
        ⟨120, [none]⟩] ∧
    ¬ ∃ (r s : Nat),
      table_cell [⟨0, [some (⟨0, 60⟩, 1)]⟩, ⟨60, [some (⟨45, 120⟩, 1)]⟩,
        ⟨120, [none]⟩] r (SCHEDULE_DAY_OFFSET + 0) =
        some (some (⟨30, 60⟩, s)) := by
  have h60 : (insert 60 {120} : Finset Int).sort (· ≤ ·) = [60, 120] := by
    rw [Finset.sort_insert]
    · simp
    · intro b hb
      simp at hb
      omega
    · simp
  have hsort : ({0, 60, 120} : Finset Int).sort (· ≤ ·) = [0, 60, 120] := by
    rw [show ({0, 60, 120} : Finset Int) = insert 0 (insert 60 {120}) from rfl]
    rw [Finset.sort_insert]
    · rw [h60]
    · intro b hb
      simp at hb
      omega
    · simp
  refine ⟨by decide, ?_, ?_⟩
  · rw [empty_table, hsort]
    simp [populate_table, populate_table_days, populate_table_day,
      populate_table_day_go, advance_cursor, add_to_table, DAY]
  · rintro ⟨r, s, h⟩
    rw [table_cell_day] at h
    rcases r with _ | _ | _ | n
    · simp [cell] at h
    · simp [cell] at h
    · simp [cell] at h
    · rw [cell, List.getElem?_eq_none (by simp)] at h
      exact absurd h (by simp)

/-- Claim C5: the row-offset set returned by `split_days` is exactly the
zero offset together with, for every slot whose naive local start is
strictly after its assigned day's start, the distance from that day's
start to the slot's start (`slot_offsets`); no other offsets occur. -/
theorem split_days_partitions_characterisation :
    ∀ (nlstart : Int) (data : List Slot) (data_lists : List (List Slot))
      (partitions : Finset Int),
      split_days nlstart data = .ok (data_lists, partitions) →
      0 ∈ partitions ∧
      partitions = insert 0 (slot_offsets nlstart data).toFinset := by
  intro nlstart data data_lists partitions h
  rw [split_days] at h
  have hp := split_days_go_partitions data nlstart (nlstart + DAY) [] [] {0}
    rfl (data_lists, partitions) h
  simp only at hp
  rw [hp, ← Finset.insert_eq]
  exact ⟨Finset.mem_insert_self 0 _, rfl⟩

/-- Witness for C5: a slot starting half an hour into the day contributes
exactly the offset 30 beside the zero offset. -/
theorem split_days_partitions_characterisation_witness :
    split_days 0 [⟨30, 90⟩] = .ok ([[⟨30, 90⟩]], {0, 30}) ∧
    0 ∈ ({0, 30} : Finset Int) ∧
    ({0, 30} : Finset Int) = insert 0 (slot_offsets 0 [⟨30, 90⟩]).toFinset := by
  have hs : split_days 0 [⟨30, 90⟩] = .ok ([[⟨30, 90⟩]], {0, 30}) := by
    simp [split_days, split_days_go, rotate_loop, DAY]
    decide
  have h := split_days_partitions_characterisation 0 [⟨30, 90⟩] _ _ hs
  exact ⟨hs, h.1, h.2⟩

/-- Claim C9: every element of the row-offset set returned by
`split_days` lies in `[0, DAY)`: the set contains zero, and the rotation
loop guarantees each slot's local start is before its assigned day's end
before an offset is computed. -/
theorem split_days_partitions_bounded :
    ∀ (nlstart : Int) (data : List Slot) (r : List (List Slot) × Finset Int),
      split_days nlstart data = .ok r →
      0 ∈ r.2 ∧ ∀ p ∈ r.2, 0 ≤ p ∧ p < DAY := by
  intro nlstart data r h
  rw [split_days] at h
  constructor
  · have hp := split_days_go_partitions data nlstart (nlstart + DAY) [] [] {0}
      rfl r h
    rw [hp]
    exact Finset.mem_union_left _ (by simp)
  · refine split_days_go_bounds data nlstart (nlstart + DAY) [] [] {0} rfl
      ?_ r h
    intro p hp
    rw [Finset.mem_singleton] at hp
    subst hp
    exact ⟨le_refl 0, by norm_num [DAY]⟩

/-- Witness for C9: a concrete successful run whose offsets 0 and 100 both
lie inside `[0, DAY)`. -/
theorem split_days_partitions_bounded_witness :
    split_days 0 [⟨100, 200⟩] = .ok ([[⟨100, 200⟩]], {0, 100}) ∧
    0 ∈ ({0, 100} : Finset Int) ∧
    ∀ p ∈ ({0, 100} : Finset Int), 0 ≤ p ∧ p < DAY := by
  have hs : split_days 0 [⟨100, 200⟩] = .ok ([[⟨100, 200⟩]], {0, 100}) := by
    simp [split_days, split_days_go, rotate_loop, DAY]
    decide
  have h := split_days_partitions_bounded 0 [⟨100, 200⟩] _ hs
  exact ⟨hs, h.1, h.2⟩

/-- Claim C3: in `populate_table_day`, the cursor advances exactly while
the row time plus the day offset is earlier than the slot's naive local
end; when it stops within the table at a row whose time is strictly
greater than the slot's local end, `ScheduleInconsistencyError` is raised,
and when it instead runs past the last row the slot is inserted and
processing continues without that error. -/
theorem populate_table_day_cursor_behaviour :
    ∀ (table : Table) (offset : Int) (days cur : Nat) (slot : Slot)
      (rest : List Slot),
      (∀ j, cur ≤ j → j < (advance_cursor table offset slot.nlEnd cur).1 →
        ∃ h : j < table.length, (table[j]).time + offset < slot.nlEnd) ∧
      (∀ row, (advance_cursor table offset slot.nlEnd cur).2 = some row →
        ¬ row.time + offset < slot.nlEnd) ∧
      (∀ row, (advance_cursor table offset slot.nlEnd cur).2 = some row →
        row.time + offset > slot.nlEnd →
        populate_table_day_go offset days table cur (slot :: rest) =
          .error .scheduleConsistency) ∧
      ((advance_cursor table offset slot.nlEnd cur).2 = none →
        populate_table_day_go offset days table cur (slot :: rest) =
          match add_to_table table days cur slot
              ((advance_cursor table offset slot.nlEnd cur).1 - cur) with
          | .error e => .error e
          | .ok table2 =>
              populate_table_day_go offset days table2
                ((advance_cursor table offset slot.nlEnd cur).1) rest) := by
  intro table offset days cur slot rest
  obtain ⟨h1, h2, h3, h4⟩ := advance_cursor_spec table offset slot.nlEnd cur
  refine ⟨h2, ?_, ?_, ?_⟩
  · intro row hrow
    exact (h3 row hrow).2.2
  · intro row hrow hgt
    rw [populate_table_day_go]
    rcases hadv : advance_cursor table offset slot.nlEnd cur with ⟨cur2, orow⟩
    rw [hadv] at hrow
    simp only at hrow
    subst hrow
    exact if_pos hgt
  · intro hnone
    rw [populate_table_day_go]
    rcases hadv : advance_cursor table offset slot.nlEnd cur with ⟨cur2, orow⟩
    rw [hadv] at hnone
    simp only at hnone
    subst hnone
    rfl

/-- Witness for C3: a two-row table whose second row overshoots the
slot's end, raising `ScheduleInconsistencyError`. -/
theorem populate_table_day_cursor_behaviour_witness :
    advance_cursor [⟨0, [none]⟩, ⟨100, [none]⟩] 0 60 0 =
      (1, some ⟨100, [none]⟩) ∧
    populate_table_day_go 0 0 [⟨0, [none]⟩, ⟨100, [none]⟩] 0 [⟨0, 60⟩] =
      .error .scheduleConsistency := by
  have hadv : advance_cursor [⟨0, [none]⟩, ⟨100, [none]⟩] 0 60 0 =
      (1, some ⟨100, [none]⟩) := by
    simp [advance_cursor]
  refine ⟨hadv, ?_⟩
  exact (populate_table_day_cursor_behaviour [⟨0, [none]⟩, ⟨100, [none]⟩]
    0 0 0 ⟨0, 60⟩ []).2.2.1 ⟨100, [none]⟩ (by rw [hadv]) (by norm_num)

/-- Claim C6: `tabulate` passes an error-signifier string through
unchanged, raising nothing and building no table; on list data it returns
the populated grid built from the partitioned day lists. -/
theorem tabulate_error_passthrough :
    ∀ nlstart : Int,
      (∀ s : String, tabulate nlstart (.inl s) = .ok (.inl s)) ∧
      (∀ (slots : List Slot) (data_lists : List (List Slot))
          (partitions : Finset Int),
        split_days nlstart slots = .ok (data_lists, partitions) →
        tabulate nlstart (.inr slots) =
          (populate_table (empty_table nlstart partitions data_lists.length)
              data_lists).map Sum.inr) := by
  intro nlstart
  constructor
  · intro s; rfl
  · intro slots data_lists partitions h
    simp only [tabulate, h]
    cases hp : populate_table (empty_table nlstart partitions data_lists.length)
        data_lists <;>
      simp [Except.map, hp]

/-- Witness for C6: a one-slot schedule whose `split_days` run succeeds,
so `tabulate` returns the populated grid. -/
theorem tabulate_error_passthrough_witness :
    split_days 0 [⟨0, 1440⟩] = .ok ([[⟨0, 1440⟩]], {0}) ∧
    tabulate 0 (.inr [⟨0, 1440⟩]) =
      (populate_table (empty_table 0 {0} 1) [[⟨0, 1440⟩]]).map Sum.inr := by
  have hs : split_days 0 [⟨0, 1440⟩] = .ok ([[⟨0, 1440⟩]], {0}) := by
    simp [split_days, split_days_go, rotate_loop, DAY]
  exact ⟨hs, (tabulate_error_passthrough 0).2 [⟨0, 1440⟩] [[⟨0, 1440⟩]] {0} hs⟩
